import Mathlib

/-!
A shallow embedding of the grocery-document pipeline's core:
the item extractor (`backend/services/item_extractor.py`) and the
document parser (`backend/services/document_parser.py`).

Strings are modelled as `List Char` (Python `str`), byte buffers as
`List Nat` with entries below 256, and Python exceptions as explicit
sum types.  Each definition mirrors one Python function or constant.
-/

/-- Characters Python `str.strip()` removes (the ASCII whitespace set). -/
def isSpaceChar (c : Char) : Bool :=
  c == ' ' || c == '\t' || c == '\n' || c == '\r' || c == '\x0b' || c == '\x0c'

/-- Python `str.strip()`: drop leading and trailing whitespace. -/
def pyStrip (s : List Char) : List Char :=
  ((s.dropWhile isSpaceChar).reverse.dropWhile isSpaceChar).reverse

/-- Python `str.lower()` (ASCII model). -/
def pyLower (s : List Char) : List Char :=
  s.map Char.toLower

/-- Python `str.isupper()`: at least one cased character and no lowercase one
(ASCII model: cased = alphabetic). -/
def isUpperPy (s : List Char) : Bool :=
  s.any (fun c => c.isAlpha) && s.all (fun c => !c.isLower)

/-- Split on every character satisfying `p`, keeping empty segments,
as Python `str.split(sep)` / `re.split` do. -/
def splitOnPred (p : Char → Bool) : List Char → List (List Char)
  | [] => [[]]
  | c :: cs =>
    if p c then [] :: splitOnPred p cs
    else
      match splitOnPred p cs with
      | [] => [[c]]
      | t :: ts => (c :: t) :: ts

/-- Python `text.split('\n')`. -/
def splitLines (s : List Char) : List (List Char) :=
  splitOnPred (fun c => c == '\n') s

/-- Python `'\n'.join(blocks)`. -/
def joinNL : List (List Char) → List Char
  | [] => []
  | [l] => l
  | l :: l2 :: ls => l ++ '\n' :: joinNL (l2 :: ls)

/-- Whether `pat` is a prefix of `s` (character-exact). -/
def isPrefixChars : List Char → List Char → Bool
  | [], _ => true
  | _ :: _, [] => false
  | p :: ps, c :: cs => p == c && isPrefixChars ps cs

/-- Python `pat in hay` substring containment. -/
def containsSub (pat : List Char) : List Char → Bool
  | [] => pat.isEmpty
  | c :: cs => isPrefixChars pat (c :: cs) || containsSub pat cs

/-- Helper for Python `str.split()` with no argument: accumulate the current
word (reversed) and break on whitespace runs. -/
def splitWordsAux : List Char → List Char → List (List Char)
  | [], acc => if acc.isEmpty then [] else [acc.reverse]
  | c :: cs, acc =>
    if isSpaceChar c then
      if acc.isEmpty then splitWordsAux cs []
      else acc.reverse :: splitWordsAux cs []
    else splitWordsAux cs (c :: acc)

/-- Python `str.split()`: split on whitespace runs, dropping empty tokens. -/
def pySplitWords (s : List Char) : List (List Char) :=
  splitWordsAux s []

/-! ## Item extractor (`item_extractor.py`) -/

/-- Regex `^\d+[.)]\s*`: one leading digit run, a dot or closing paren,
then whitespace, removed once (the `^` anchor admits a single match). -/
def stripNumericMarker (s : List Char) : List Char :=
  let ds := s.takeWhile Char.isDigit
  if ds.isEmpty then s
  else
    match s.drop ds.length with
    | c :: rest => if c == '.' || c == ')' then rest.dropWhile isSpaceChar else s
    | [] => s

/-- Regex `^[-*•]\s*`: one leading bullet glyph plus whitespace, removed once. -/
def stripBulletMarker (s : List Char) : List Char :=
  match s with
  | c :: rest =>
    if c == '-' || c == '*' || c == '•' then rest.dropWhile isSpaceChar else s
  | [] => s

/-- Regex `^\[\s*\]\s*`: a leading `[ ]` checkbox, removed once. -/
def stripCheckboxSquare (s : List Char) : List Char :=
  match s with
  | '[' :: rest =>
    match rest.dropWhile isSpaceChar with
    | ']' :: rest2 => rest2.dropWhile isSpaceChar
    | _ => s
  | _ => s

/-- Regex `^\(\s*\)\s*`: a leading `( )` checkbox, removed once. -/
def stripCheckboxParen (s : List Char) : List Char :=
  match s with
  | '(' :: rest =>
    match rest.dropWhile isSpaceChar with
    | ')' :: rest2 => rest2.dropWhile isSpaceChar
    | _ => s
  | _ => s

/-- The four marker substitutions of `_extract_item_text`, applied in the
source's order, each to the previous one's output. -/
def stripMarkers (s : List Char) : List Char :=
  stripCheckboxParen (stripCheckboxSquare (stripBulletMarker (stripNumericMarker s)))

/-- The unit alternation `(lb|lbs|oz|kg|g|bags?|cans?|bottles?|boxes?|packs?)`
in the regex's order: each entry is the literal stem and whether an optional
trailing `s` follows (note `boxes?` is the stem `boxe` plus optional `s`). -/
def unitAlts : List (List Char × Bool) :=
  [("lb".toList, false), ("lbs".toList, false), ("oz".toList, false),
   ("kg".toList, false), ("g".toList, false),
   ("bag".toList, true), ("can".toList, true),
   ("bottle".toList, true), ("boxe".toList, true), ("pack".toList, true)]

/-- Case-insensitive literal prefix match (pattern given in lowercase),
returning the remainder on success. -/
def matchCI : List Char → List Char → Option (List Char)
  | [], s => some s
  | _ :: _, [] => none
  | p :: ps, c :: cs => if c.toLower == p then matchCI ps cs else none

/-- First alternative of the alternation that matches at the start of `s`
(Python regex alternation is ordered, not longest-match), consuming a
greedy optional `s` when the alternative has one. -/
def matchUnitAlts : List (List Char × Bool) → List Char → Option (List Char)
  | [], _ => none
  | (stem, opts) :: alts, s =>
    match matchCI stem s with
    | some rest =>
      if opts then
        match rest with
        | c :: rest2 => if c.toLower == 's' then some rest2 else some rest
        | [] => some rest
      else some rest
    | none => matchUnitAlts alts s

/-- Regex `^\d+\s*(lb|lbs|oz|kg|g|bags?|cans?|bottles?|boxes?|packs?)?\s*`
with `re.IGNORECASE`, removed once: digits, whitespace, an optional unit
alternative, then whitespace.  Without a leading digit nothing matches. -/
def stripQuantity (s : List Char) : List Char :=
  let ds := s.takeWhile Char.isDigit
  if ds.isEmpty then s
  else
    let r1 := (s.drop ds.length).dropWhile isSpaceChar
    let r2 := match matchUnitAlts unitAlts r1 with
      | some r => r
      | none => r1
    r2.dropWhile isSpaceChar

/-- The `skip_keywords` list of `_extract_item_text`. -/
def skipKeywords : List (List Char) :=
  ["grocery".toList, "list".toList, "shopping".toList, "store".toList,
   "items".toList, "total".toList, "date".toList]

/-- The rejection checks at the end of `_extract_item_text`, applied to the
cleaned and re-trimmed line: reject short/long lines, upper-case headers,
and stop-keyword lines of at most three words. -/
def acceptLine (line : List Char) : Option (List Char) :=
  if line.length < 2 ∨ line.length > 100 then none
  else if isUpperPy line = true ∧ line.length > 15 then none
  else if (skipKeywords.any fun k => containsSub k (pyLower line)) = true
          ∧ (pySplitWords line).length ≤ 3 then none
  else some line

/-- `ItemExtractor._extract_item_text`: strip markers and a quantity token,
trim again, then run the rejection checks. -/
def extract_item_text (line0 : List Char) : Option (List Char) :=
  acceptLine (pyStrip (stripQuantity (stripMarkers line0)))

/-- `ItemExtractor.CATEGORIES`, in the dict's declaration order. -/
def CATEGORIES : List (List Char × List (List Char)) :=
  [("produce".toList,
    ["apple".toList, "banana".toList, "orange".toList, "lettuce".toList,
     "tomato".toList, "potato".toList, "onion".toList, "carrot".toList,
     "broccoli".toList, "spinach".toList]),
   ("dairy".toList,
    ["milk".toList, "cheese".toList, "yogurt".toList, "butter".toList,
     "cream".toList, "eggs".toList]),
   ("meat".toList,
    ["chicken".toList, "beef".toList, "pork".toList, "fish".toList,
     "turkey".toList, "lamb".toList, "bacon".toList, "sausage".toList]),
   ("bakery".toList,
    ["bread".toList, "bagel".toList, "muffin".toList, "croissant".toList,
     "buns".toList, "rolls".toList]),
   ("pantry".toList,
    ["rice".toList, "pasta".toList, "flour".toList, "sugar".toList,
     "salt".toList, "pepper".toList, "oil".toList, "sauce".toList,
     "cereal".toList]),
   ("beverages".toList,
    ["coffee".toList, "tea".toList, "juice".toList, "soda".toList,
     "water".toList, "beer".toList, "wine".toList]),
   ("snacks".toList,
    ["chips".toList, "crackers".toList, "cookies".toList, "candy".toList,
     "nuts".toList, "popcorn".toList]),
   ("frozen".toList,
    ["ice cream".toList, "frozen pizza".toList, "frozen vegetables".toList,
     "frozen fruit".toList]),
   ("cleaning".toList,
    ["soap".toList, "detergent".toList, "bleach".toList, "sponge".toList,
     "paper towels".toList, "toilet paper".toList])]

/-- The category loop of `_detect_category`: first category, in order, with
a keyword occurring in the lowered name. -/
def detectAux : List (List Char × List (List Char)) → List Char → Option (List Char)
  | [], _ => none
  | (cat, kws) :: rest, itemLower =>
    if kws.any (fun k => containsSub k itemLower) then some cat
    else detectAux rest itemLower

/-- `ItemExtractor._detect_category`. -/
def detect_category (itemText : List Char) : Option (List Char) :=
  detectAux CATEGORIES (pyLower itemText)

/-- One emitted item record `{name, category, original}`. -/
structure Item where
  name : List Char
  category : Option (List Char)
  original : List Char
deriving DecidableEq

/-- The body of `extract_items`' per-line loop: trim, skip empty lines,
and emit a record whose `original` is the trimmed line (the source rebinds
`line = line.strip()` before storing it). -/
def lineToItem (rawLine : List Char) : Option Item :=
  if pyStrip rawLine = [] then none
  else
    match extract_item_text (pyStrip rawLine) with
    | some t => some ⟨t, detect_category t, pyStrip rawLine⟩
    | none => none

/-- `ItemExtractor.extract_items`. -/
def extract_items (text : List Char) : List Item :=
  (splitLines text).filterMap lineToItem

/-- Python `text.replace(' and ', ', ')`: leftmost occurrences, scanning
resumes after each replacement. -/
def replaceAnd : List Char → List Char
  | ' ' :: 'a' :: 'n' :: 'd' :: ' ' :: rest => ',' :: ' ' :: replaceAnd rest
  | c :: cs => c :: replaceAnd cs
  | [] => []

/-- `ItemExtractor.extract_from_voice`: rewrite `" and "` separators, split
on `,` or `;`, trim, and keep every token longer than one character with
`name` and `original` both the trimmed token. -/
def extract_from_voice (text : List Char) : List Item :=
  (splitOnPred (fun c => c == ',' || c == ';') (replaceAnd text)).filterMap
    fun tok0 =>
      if pyStrip tok0 ≠ [] ∧ (pyStrip tok0).length > 1 then
        some ⟨pyStrip tok0, detect_category (pyStrip tok0), pyStrip tok0⟩
      else none

/-! ## Document parser (`document_parser.py`) -/

/-- One run of `parse_pdf`'s two engines over a file: what
`page.extract_text()` returned for each pdfplumber page processed before a
possible exception, whether the pdfplumber pass raised, the
`page.get_text()` results of the PyMuPDF pages, and whether the PyMuPDF
pass raised. -/
structure PdfFile where
  primaryPages : List (Option (List Char))
  primaryRaises : Bool
  secondaryPages : List (List Char)
  secondaryRaises : Bool

/-- The page texts the pdfplumber loop appends: each result that is neither
`None` nor empty (`if page_text:`). -/
def collectedPrimary (f : PdfFile) : List (List Char) :=
  f.primaryPages.filterMap fun p =>
    match p with
    | some t => if t.isEmpty then none else some t
    | none => none

/-- `DocumentParser.parse_pdf`: return the joined pdfplumber texts when that
pass neither raised nor collected nothing; otherwise fall back to PyMuPDF,
appending its page texts to the same (not reset) `text` list, and return
the empty string when the fallback raises too. -/
def parse_pdf (f : PdfFile) : List Char :=
  if f.primaryRaises = false ∧ collectedPrimary f ≠ [] then
    joinNL (collectedPrimary f)
  else if f.secondaryRaises = true then []
  else joinNL (collectedPrimary f ++ f.secondaryPages)

/-- A Python exception as the caller can observe it: its class and message. -/
structure PyError where
  cls : List Char
  msg : List Char
deriving DecidableEq

/-- The class of Python's base `Exception`, which `raise Exception(...)`
instantiates. -/
def genericExceptionClass : List Char := "Exception".toList

/-- The exception `parse_image` raises on any OCR failure. -/
def ocrFailureError : PyError :=
  ⟨genericExceptionClass,
   "OCR processing failed. Ensure Tesseract is installed.".toList⟩

/-- `DocumentParser.parse_image`: the argument is what the
`Image.open` + `pytesseract.image_to_string` step did (its text, or the
exception it raised, covering OCR being absent or throwing).  Any exception
is caught and re-raised as a plain `Exception` with a fixed message; a
successful OCR result is returned trimmed. -/
def parse_image (ocr : Except PyError (List Char)) : Except PyError (List Char) :=
  match ocr with
  | Except.error _ => Except.error ocrFailureError
  | Except.ok t => Except.ok (pyStrip t)

/-- A Unicode scalar value (what Python's UTF-8 codec accepts): below the
surrogate range, or between it and 0x110000. -/
def validScalar (n : Nat) : Bool :=
  n < 0xD800 || (0xE000 ≤ n && n < 0x110000)

/-- A UTF-8 continuation byte. -/
def contByte (b : Nat) : Bool :=
  0x80 ≤ b && b < 0xC0

/-- One step of Python's strict UTF-8 decoder: given the lead byte and the
bytes after it, the decoded scalar and how many continuation bytes it used;
`none` on a stray continuation byte, an overlong form, a surrogate or a
value past 0x10FFFF, as `bytes.decode('utf-8')` rejects them. -/
def utf8DecodeOne (b : Nat) (bs : List Nat) : Option (Nat × Nat) :=
  if b < 0x80 then some (b, 0)
  else if b < 0xC2 then none
  else if b < 0xE0 then
    match bs with
    | b1 :: _ =>
      if contByte b1 = true then some ((b - 0xC0) * 64 + (b1 - 0x80), 1) else none
    | [] => none
  else if b < 0xF0 then
    match bs with
    | b1 :: b2 :: _ =>
      if contByte b1 = true ∧ contByte b2 = true
          ∧ 0x800 ≤ (b - 0xE0) * 4096 + (b1 - 0x80) * 64 + (b2 - 0x80)
          ∧ validScalar ((b - 0xE0) * 4096 + (b1 - 0x80) * 64 + (b2 - 0x80)) = true then
        some ((b - 0xE0) * 4096 + (b1 - 0x80) * 64 + (b2 - 0x80), 2)
      else none
    | _ => none
  else if b < 0xF5 then
    match bs with
    | b1 :: b2 :: b3 :: _ =>
      if contByte b1 = true ∧ contByte b2 = true ∧ contByte b3 = true
          ∧ 0x10000 ≤ (b - 0xF0) * 262144 + (b1 - 0x80) * 4096 + (b2 - 0x80) * 64 + (b3 - 0x80)
          ∧ (b - 0xF0) * 262144 + (b1 - 0x80) * 4096 + (b2 - 0x80) * 64 + (b3 - 0x80) < 0x110000 then
        some ((b - 0xF0) * 262144 + (b1 - 0x80) * 4096 + (b2 - 0x80) * 64 + (b3 - 0x80), 3)
      else none
    | _ => none
  else none

/-- Python's strict UTF-8 decoder on a byte list, yielding the code points:
decode one scalar at a time, failing as soon as one step fails. -/
def utf8Decode : List Nat → Option (List Nat)
  | [] => some []
  | b :: bs =>
    match utf8DecodeOne b bs with
    | some (n, k) => (utf8Decode (bs.drop k)).map (fun s => n :: s)
    | none => none
termination_by l => l.length
decreasing_by
  simp only [List.length_cons, List.length_drop]
  omega

/-- UTF-8 encoding of one scalar value. -/
def utf8EncodeChar (n : Nat) : List Nat :=
  if n < 0x80 then [n]
  else if n < 0x800 then [0xC0 + n / 64, 0x80 + n % 64]
  else if n < 0x10000 then
    [0xE0 + n / 4096, 0x80 + n / 64 % 64, 0x80 + n % 64]
  else
    [0xF0 + n / 262144, 0x80 + n / 4096 % 64, 0x80 + n / 64 % 64, 0x80 + n % 64]

/-- UTF-8 encoding of a code-point sequence. -/
def utf8Encode (s : List Nat) : List Nat :=
  s.flatMap utf8EncodeChar

/-- Universal-newline translation of text mode (`open(..., 'r')` with
`newline=None`): `\r\n` and lone `\r` both become `\n`. -/
def univNewlines : List Nat → List Nat
  | [] => []
  | 13 :: 10 :: rest => 10 :: univNewlines rest
  | 13 :: rest => 10 :: univNewlines rest
  | c :: rest => c :: univNewlines rest

/-- `DocumentParser.parse_text`: read the file's bytes as UTF-8 text in text
mode — strict decoding (`none` models `UnicodeDecodeError`) followed by
universal-newline translation. -/
def parse_text (bytes : List Nat) : Option (List Nat) :=
  (utf8Decode bytes).map univNewlines

/-! ## Lemmas about the string utilities -/

theorem head_of_dropWhile_false {p : Char → Bool} :
    ∀ (l : List Char) (a : Char), (l.dropWhile p).head? = some a → p a = false := by
  intro l
  induction l with
  | nil => intro a h; simp [List.dropWhile] at h
  | cons c cs ih =>
    intro a h
    by_cases hc : p c = true
    · rw [List.dropWhile_cons_of_pos hc] at h
      exact ih a h
    · rw [List.dropWhile_cons_of_neg hc] at h
      simp only [List.head?_cons, Option.some.injEq] at h
      subst h
      exact Bool.eq_false_iff.mpr hc

theorem dropWhile_eq_self_of_head {p : Char → Bool} {l : List Char}
    (h : ∀ a, l.head? = some a → p a = false) : l.dropWhile p = l := by
  cases l with
  | nil => rfl
  | cons c cs =>
    exact List.dropWhile_cons_of_neg (by simp [h c rfl])

theorem pyStrip_head_false (l : List Char) (a : Char)
    (h : (pyStrip l).head? = some a) : isSpaceChar a = false := by
  unfold pyStrip at h
  rcases hw : (l.dropWhile isSpaceChar).reverse.dropWhile isSpaceChar with _ | ⟨c, cs⟩
  · rw [hw] at h; simp at h
  · rw [hw] at h
    rw [List.head?_reverse] at h
    have h2 : ((l.dropWhile isSpaceChar).reverse.takeWhile isSpaceChar
        ++ (l.dropWhile isSpaceChar).reverse.dropWhile isSpaceChar).getLast? = some a := by
      rw [List.getLast?_append_of_ne_nil _ (by rw [hw]; exact List.cons_ne_nil c cs)]
      rw [hw]; exact h
    rw [List.takeWhile_append_dropWhile, List.getLast?_reverse] at h2
    exact head_of_dropWhile_false l a h2

theorem pyStrip_idem (l : List Char) : pyStrip (pyStrip l) = pyStrip l := by
  have h1 : (pyStrip l).dropWhile isSpaceChar = pyStrip l :=
    dropWhile_eq_self_of_head (pyStrip_head_false l)
  show ((((pyStrip l).dropWhile isSpaceChar).reverse).dropWhile isSpaceChar).reverse = pyStrip l
  rw [h1]
  have h2 : (pyStrip l).reverse.dropWhile isSpaceChar = (pyStrip l).reverse := by
    apply dropWhile_eq_self_of_head
    intro a ha
    unfold pyStrip at ha
    rw [List.reverse_reverse] at ha
    exact head_of_dropWhile_false _ a ha
  rw [h2, List.reverse_reverse]

theorem mem_pyStrip {c : Char} {l : List Char} (h : c ∈ pyStrip l) : c ∈ l := by
  unfold pyStrip at h
  rw [List.mem_reverse] at h
  have h2 := (List.dropWhile_sublist isSpaceChar).mem h
  rw [List.mem_reverse] at h2
  exact (List.dropWhile_sublist isSpaceChar).mem h2

theorem splitOnPred_ne_nil (p : Char → Bool) (s : List Char) :
    splitOnPred p s ≠ [] := by
  cases s with
  | nil => simp [splitOnPred]
  | cons c cs =>
    rw [splitOnPred]
    by_cases hc : p c
    · simp [hc]
    · simp only [hc]
      rcases hs : splitOnPred p cs with _ | ⟨t, ts⟩
      · simp
      · simp

theorem mem_splitOnPred_false {p : Char → Bool} :
    ∀ (s : List Char) (l : List Char), l ∈ splitOnPred p s →
      ∀ c ∈ l, p c = false := by
  intro s
  induction s with
  | nil =>
    intro l hl c hc
    simp [splitOnPred] at hl
    subst hl
    simp at hc
  | cons a as ih =>
    intro l hl c hc
    by_cases ha : p a = true
    · rw [splitOnPred] at hl
      simp only [ha, if_true, List.mem_cons] at hl
      rcases hl with rfl | hl
      · simp at hc
      · exact ih l hl c hc
    · have ha' : p a = false := Bool.eq_false_iff.mpr ha
      rcases hs : splitOnPred p as with _ | ⟨t, ts⟩
      · exact absurd hs (splitOnPred_ne_nil p as)
      · rw [splitOnPred, ha', hs] at hl
        simp at hl
        rcases hl with rfl | hl
        · rcases List.mem_cons.mp hc with rfl | hct
          · exact ha'
          · exact ih t (by rw [hs]; exact List.mem_cons_self t ts) c hct
        · exact ih l (by rw [hs]; exact List.mem_cons_of_mem t hl) c hc

theorem splitOnPred_no_sep {p : Char → Bool} :
    ∀ (l : List Char), (∀ c ∈ l, p c = false) → splitOnPred p l = [l] := by
  intro l
  induction l with
  | nil => intro _; rfl
  | cons c cs ih =>
    intro h
    rw [splitOnPred]
    have hc : p c = false := h c (List.mem_cons_self c cs)
    simp only [hc, if_false]
    rw [ih (fun a ha => h a (List.mem_cons_of_mem c ha))]
    simp

theorem splitOnPred_append_sep {p : Char → Bool} {sep : Char} (hsep : p sep = true) :
    ∀ (l t : List Char), (∀ c ∈ l, p c = false) →
      splitOnPred p (l ++ sep :: t) = l :: splitOnPred p t := by
  intro l
  induction l with
  | nil =>
    intro t _
    simp only [List.nil_append]
    rw [splitOnPred]
    simp [hsep]
  | cons c cs ih =>
    intro t h
    have hc : p c = false := h c (List.mem_cons_self c cs)
    rw [List.cons_append, splitOnPred, hc,
      ih t (fun a ha => h a (List.mem_cons_of_mem c ha))]
    simp

theorem splitLines_joinNL :
    ∀ (ls : List (List Char)), ls ≠ [] →
      (∀ l ∈ ls, ∀ c ∈ l, (c == '\n') = false) →
      splitLines (joinNL ls) = ls := by
  intro ls
  induction ls with
  | nil => intro h _; exact absurd rfl h
  | cons l ls ih =>
    intro _ hfree
    cases ls with
    | nil =>
      rw [joinNL, splitLines]
      exact splitOnPred_no_sep l (hfree l (List.mem_cons_self l []))
    | cons l2 ls2 =>
      rw [joinNL, splitLines]
      rw [splitOnPred_append_sep (by simp) l (joinNL (l2 :: ls2))
        (hfree l (List.mem_cons_self l (l2 :: ls2)))]
      have := ih (List.cons_ne_nil l2 ls2)
        (fun a ha c hc => hfree a (List.mem_cons_of_mem l ha) c hc)
      rw [splitLines] at this
      rw [this]

theorem acceptLine_elim {line t : List Char} (h : acceptLine line = some t) :
    t = line ∧ 2 ≤ t.length ∧ t.length ≤ 100 := by
  unfold acceptLine at h
  split at h
  · cases h
  · split at h
    · cases h
    · split at h
      · cases h
      · injection h with h'
        subst h'
        refine ⟨rfl, ?_, ?_⟩ <;> omega

theorem extract_item_text_elim {line0 t : List Char}
    (h : extract_item_text line0 = some t) :
    t = pyStrip (stripQuantity (stripMarkers line0)) ∧
      2 ≤ t.length ∧ t.length ≤ 100 :=
  acceptLine_elim h

theorem lineToItem_elim {raw : List Char} {it : Item} (h : lineToItem raw = some it) :
    it.original = pyStrip raw ∧ extract_item_text (pyStrip raw) = some it.name ∧
      it.category = detect_category it.name ∧ pyStrip raw ≠ [] := by
  unfold lineToItem at h
  split at h
  · cases h
  · rcases ht : extract_item_text (pyStrip raw) with _ | t
    · rw [ht] at h; cases h
    · rw [ht] at h
      injection h with h'
      subst h'
      exact ⟨rfl, rfl, rfl, by assumption⟩

theorem lineToItem_refix {raw : List Char} {it : Item} (h : lineToItem raw = some it) :
    lineToItem it.original = some it := by
  obtain ⟨ho, ht, hc, hne⟩ := lineToItem_elim h
  unfold lineToItem
  rw [ho, pyStrip_idem, if_neg hne, ht]
  show some ⟨it.name, detect_category it.name, pyStrip raw⟩ = some it
  rw [← hc, ← ho]

theorem extract_items_elim {text : List Char} {it : Item}
    (h : it ∈ extract_items text) :
    ∃ raw ∈ splitLines text, lineToItem raw = some it := by
  unfold extract_items at h
  exact List.mem_filterMap.mp h

theorem filterMap_originals {its : List Item}
    (h : ∀ it ∈ its, lineToItem it.original = some it) :
    (its.map Item.original).filterMap lineToItem = its := by
  induction its with
  | nil => rfl
  | cons it its ih =>
    rw [List.map_cons, List.filterMap_cons,
      h it (List.mem_cons_self it its),
      ih (fun a ha => h a (List.mem_cons_of_mem it ha))]

theorem extract_from_voice_elim {text : List Char} {it : Item}
    (h : it ∈ extract_from_voice text) :
    it.original = it.name ∧ pyStrip it.name = it.name ∧ 1 < it.name.length := by
  unfold extract_from_voice at h
  rw [List.mem_filterMap] at h
  obtain ⟨tok0, _, hf⟩ := h
  split at hf
  · injection hf with h'
    subst h'
    exact ⟨rfl, pyStrip_idem tok0, by
      rename_i hcond
      exact hcond.2⟩
  · cases hf

theorem univNewlines_no_cr : ∀ (s : List Nat), 13 ∉ s → univNewlines s = s := by
  intro s
  induction s using univNewlines.induct with
  | case1 => intro _; rfl
  | case2 rest ih => intro h; simp at h
  | case3 rest _ ih => intro h; simp at h
  | case4 c rest h1 h2 ih =>
    intro h
    rw [univNewlines]
    · rw [ih (fun hm => h (List.mem_cons_of_mem c hm))]
    · exact h1
    · exact h2

theorem contByte_iff {b : Nat} : contByte b = true ↔ 0x80 ≤ b ∧ b < 0xC0 := by
  unfold contByte
  simp

theorem validScalar_iff {n : Nat} :
    validScalar n = true ↔ n < 0xD800 ∨ (0xE000 ≤ n ∧ n < 0x110000) := by
  unfold validScalar
  simp

theorem utf8Decode_encodeChar {n : Nat} (hv : validScalar n = true) (bs : List Nat) :
    utf8Decode (utf8EncodeChar n ++ bs) = (utf8Decode bs).map (fun s => n :: s) := by
  have hv' := validScalar_iff.mp hv
  by_cases h1 : n < 0x80
  · have he : utf8EncodeChar n = [n] := by unfold utf8EncodeChar; rw [if_pos h1]
    have hd : utf8DecodeOne n bs = some (n, 0) := by
      unfold utf8DecodeOne; rw [if_pos h1]
    rw [he, List.singleton_append]
    simp only [utf8Decode, hd, List.drop_zero]
  · by_cases h2 : n < 0x800
    · have he : utf8EncodeChar n = [0xC0 + n / 64, 0x80 + n % 64] := by
        unfold utf8EncodeChar; rw [if_neg h1, if_pos h2]
      have hd : utf8DecodeOne (0xC0 + n / 64) ((0x80 + n % 64) :: bs) = some (n, 1) := by
        unfold utf8DecodeOne
        rw [if_neg (show ¬ 0xC0 + n / 64 < 0x80 by omega),
            if_neg (show ¬ 0xC0 + n / 64 < 0xC2 by omega),
            if_pos (show 0xC0 + n / 64 < 0xE0 by omega)]
        dsimp only
        rw [if_pos (contByte_iff.mpr ⟨by omega, by omega⟩)]
        have : (0xC0 + n / 64 - 0xC0) * 64 + (0x80 + n % 64 - 0x80) = n := by omega
        rw [this]
      rw [he]
      show utf8Decode ((0xC0 + n / 64) :: (0x80 + n % 64) :: bs) = _
      simp only [utf8Decode, hd]
      rfl
    · by_cases h3 : n < 0x10000
      · have he : utf8EncodeChar n = [0xE0 + n / 4096, 0x80 + n / 64 % 64, 0x80 + n % 64] := by
          unfold utf8EncodeChar; rw [if_neg h1, if_neg h2, if_pos h3]
        have harith : (0xE0 + n / 4096 - 0xE0) * 4096 + (0x80 + n / 64 % 64 - 0x80) * 64
            + (0x80 + n % 64 - 0x80) = n := by omega
        have hd : utf8DecodeOne (0xE0 + n / 4096)
            ((0x80 + n / 64 % 64) :: (0x80 + n % 64) :: bs) = some (n, 2) := by
          unfold utf8DecodeOne
          rw [if_neg (show ¬ 0xE0 + n / 4096 < 0x80 by omega),
              if_neg (show ¬ 0xE0 + n / 4096 < 0xC2 by omega),
              if_neg (show ¬ 0xE0 + n / 4096 < 0xE0 by omega),
              if_pos (show 0xE0 + n / 4096 < 0xF0 by omega)]
          dsimp only
          rw [if_pos ⟨contByte_iff.mpr ⟨by omega, by omega⟩,
              contByte_iff.mpr ⟨by omega, by omega⟩, by omega, by rw [harith]; exact hv⟩]
          rw [harith]
        rw [he]
        show utf8Decode ((0xE0 + n / 4096) :: (0x80 + n / 64 % 64) :: (0x80 + n % 64) :: bs) = _
        simp only [utf8Decode, hd]
        rfl
      · have h4 : n < 0x110000 := by
          rcases hv' with h | h
          · omega
          · exact h.2
        have he : utf8EncodeChar n
            = [0xF0 + n / 262144, 0x80 + n / 4096 % 64, 0x80 + n / 64 % 64, 0x80 + n % 64] := by
          unfold utf8EncodeChar; rw [if_neg h1, if_neg h2, if_neg h3]
        have harith : (0xF0 + n / 262144 - 0xF0) * 262144 + (0x80 + n / 4096 % 64 - 0x80) * 4096
            + (0x80 + n / 64 % 64 - 0x80) * 64 + (0x80 + n % 64 - 0x80) = n := by omega
        have hd : utf8DecodeOne (0xF0 + n / 262144)
            ((0x80 + n / 4096 % 64) :: (0x80 + n / 64 % 64) :: (0x80 + n % 64) :: bs)
            = some (n, 3) := by
          unfold utf8DecodeOne
          rw [if_neg (show ¬ 0xF0 + n / 262144 < 0x80 by omega),
              if_neg (show ¬ 0xF0 + n / 262144 < 0xC2 by omega),
              if_neg (show ¬ 0xF0 + n / 262144 < 0xE0 by omega),
              if_neg (show ¬ 0xF0 + n / 262144 < 0xF0 by omega),
              if_pos (show 0xF0 + n / 262144 < 0xF5 by omega)]
          dsimp only
          rw [if_pos ⟨contByte_iff.mpr ⟨by omega, by omega⟩,
              contByte_iff.mpr ⟨by omega, by omega⟩,
              contByte_iff.mpr ⟨by omega, by omega⟩, by omega, by omega⟩]
          rw [harith]
        rw [he]
        show utf8Decode ((0xF0 + n / 262144) :: (0x80 + n / 4096 % 64)
            :: (0x80 + n / 64 % 64) :: (0x80 + n % 64) :: bs) = _
        simp only [utf8Decode, hd]
        rfl

theorem utf8Decode_encode (s : List Nat) (h : ∀ n ∈ s, validScalar n = true) :
    utf8Decode (utf8Encode s) = some s := by
  induction s with
  | nil => simp [utf8Encode, utf8Decode]
  | cons n ns ih =>
    have he : utf8Encode (n :: ns) = utf8EncodeChar n ++ utf8Encode ns := by
      simp [utf8Encode]
    rw [he, utf8Decode_encodeChar (h n (List.mem_cons_self n ns)),
      ih (fun a ha => h a (List.mem_cons_of_mem n ha))]
    rfl

theorem utf8DecodeOne_encode {b n k : Nat} {bs : List Nat}
    (h : utf8DecodeOne b bs = some (n, k)) :
    validScalar n = true ∧ utf8EncodeChar n ++ bs.drop k = b :: bs := by
  simp only [utf8DecodeOne] at h
  by_cases hb0 : b < 0x80
  · rw [if_pos hb0] at h
    simp only [Option.some.injEq, Prod.mk.injEq] at h
    obtain ⟨hn, hk⟩ := h
    subst hn; subst hk
    refine ⟨validScalar_iff.mpr (Or.inl (by omega)), ?_⟩
    have he : utf8EncodeChar b = [b] := by unfold utf8EncodeChar; rw [if_pos hb0]
    rw [he, List.drop_zero, List.singleton_append]
  · rw [if_neg hb0] at h
    by_cases hb1 : b < 0xC2
    · rw [if_pos hb1] at h; cases h
    · rw [if_neg hb1] at h
      by_cases hb2 : b < 0xE0
      · rw [if_pos hb2] at h
        rcases bs with _ | ⟨b1, tl⟩
        · cases h
        · dsimp only at h
          by_cases hcb : contByte b1 = true
          · rw [if_pos hcb] at h
            have hb1' := contByte_iff.mp hcb
            simp only [Option.some.injEq, Prod.mk.injEq] at h
            obtain ⟨hn, hk⟩ := h
            subst hn; subst hk
            refine ⟨validScalar_iff.mpr (Or.inl (by omega)), ?_⟩
            have he : utf8EncodeChar ((b - 0xC0) * 64 + (b1 - 0x80))
                = [0xC0 + ((b - 0xC0) * 64 + (b1 - 0x80)) / 64,
                   0x80 + ((b - 0xC0) * 64 + (b1 - 0x80)) % 64] := by
              unfold utf8EncodeChar
              rw [if_neg (by omega), if_pos (by omega)]
            rw [he]
            simp only [List.drop_succ_cons, List.drop_zero, List.cons_append,
              List.nil_append, List.cons.injEq]
            refine ⟨by omega, by omega, trivial⟩
          · rw [if_neg hcb] at h; cases h
      · rw [if_neg hb2] at h
        by_cases hb3 : b < 0xF0
        · rw [if_pos hb3] at h
          rcases bs with _ | ⟨b1, bs'⟩
          · cases h
          · rcases bs' with _ | ⟨b2, tl⟩
            · cases h
            · dsimp only at h
              by_cases hcond : contByte b1 = true ∧ contByte b2 = true
                  ∧ 0x800 ≤ (b - 0xE0) * 4096 + (b1 - 0x80) * 64 + (b2 - 0x80)
                  ∧ validScalar ((b - 0xE0) * 4096 + (b1 - 0x80) * 64 + (b2 - 0x80)) = true
              · rw [if_pos hcond] at h
                obtain ⟨hc1, hc2, hlo, hvs⟩ := hcond
                have hb1' := contByte_iff.mp hc1
                have hb2' := contByte_iff.mp hc2
                simp only [Option.some.injEq, Prod.mk.injEq] at h
                obtain ⟨hn, hk⟩ := h
                subst hn; subst hk
                refine ⟨hvs, ?_⟩
                have he : utf8EncodeChar ((b - 0xE0) * 4096 + (b1 - 0x80) * 64 + (b2 - 0x80))
                    = [0xE0 + ((b - 0xE0) * 4096 + (b1 - 0x80) * 64 + (b2 - 0x80)) / 4096,
                       0x80 + ((b - 0xE0) * 4096 + (b1 - 0x80) * 64 + (b2 - 0x80)) / 64 % 64,
                       0x80 + ((b - 0xE0) * 4096 + (b1 - 0x80) * 64 + (b2 - 0x80)) % 64] := by
                  unfold utf8EncodeChar
                  rw [if_neg (by omega), if_neg (by omega), if_pos (by omega)]
                rw [he]
                simp only [List.drop_succ_cons, List.drop_zero, List.cons_append,
                  List.nil_append, List.cons.injEq]
                refine ⟨by omega, by omega, by omega, trivial⟩
              · rw [if_neg hcond] at h; cases h
        · rw [if_neg hb3] at h
          by_cases hb4 : b < 0xF5
          · rw [if_pos hb4] at h
            rcases bs with _ | ⟨b1, bs'⟩
            · cases h
            · rcases bs' with _ | ⟨b2, bs''⟩
              · cases h
              · rcases bs'' with _ | ⟨b3, tl⟩
                · cases h
                · dsimp only at h
                  by_cases hcond : contByte b1 = true ∧ contByte b2 = true ∧ contByte b3 = true
                      ∧ 0x10000 ≤ (b - 0xF0) * 262144 + (b1 - 0x80) * 4096 + (b2 - 0x80) * 64 + (b3 - 0x80)
                      ∧ (b - 0xF0) * 262144 + (b1 - 0x80) * 4096 + (b2 - 0x80) * 64 + (b3 - 0x80) < 0x110000
                  · rw [if_pos hcond] at h
                    obtain ⟨hc1, hc2, hc3, hlo, hhi⟩ := hcond
                    have hb1' := contByte_iff.mp hc1
                    have hb2' := contByte_iff.mp hc2
                    have hb3' := contByte_iff.mp hc3
                    simp only [Option.some.injEq, Prod.mk.injEq] at h
                    obtain ⟨hn, hk⟩ := h
                    subst hn; subst hk
                    refine ⟨validScalar_iff.mpr (Or.inr ⟨by omega, by omega⟩), ?_⟩
                    have he : utf8EncodeChar ((b - 0xF0) * 262144 + (b1 - 0x80) * 4096
                          + (b2 - 0x80) * 64 + (b3 - 0x80))
                        = [0xF0 + ((b - 0xF0) * 262144 + (b1 - 0x80) * 4096 + (b2 - 0x80) * 64 + (b3 - 0x80)) / 262144,
                           0x80 + ((b - 0xF0) * 262144 + (b1 - 0x80) * 4096 + (b2 - 0x80) * 64 + (b3 - 0x80)) / 4096 % 64,
                           0x80 + ((b - 0xF0) * 262144 + (b1 - 0x80) * 4096 + (b2 - 0x80) * 64 + (b3 - 0x80)) / 64 % 64,
                           0x80 + ((b - 0xF0) * 262144 + (b1 - 0x80) * 4096 + (b2 - 0x80) * 64 + (b3 - 0x80)) % 64] := by
                      unfold utf8EncodeChar
                      rw [if_neg (by omega), if_neg (by omega), if_neg (by omega)]
                    rw [he]
                    simp only [List.drop_succ_cons, List.drop_zero, List.cons_append,
                      List.nil_append, List.cons.injEq]
                    refine ⟨by omega, by omega, by omega, by omega, trivial⟩
                  · rw [if_neg hcond] at h; cases h
          · rw [if_neg hb4] at h; cases h

theorem utf8Encode_of_decode :
    ∀ (b : List Nat) (s : List Nat), utf8Decode b = some s →
      utf8Encode s = b ∧ ∀ n ∈ s, validScalar n = true := by
  intro b
  induction b using utf8Decode.induct with
  | case1 =>
    intro s h
    simp only [utf8Decode] at h
    injection h with h'
    subst h'
    exact ⟨rfl, by intro n hn; cases hn⟩
  | case2 b bs n k hone ih =>
    intro s h
    simp only [utf8Decode, hone] at h
    rcases hrec : utf8Decode (bs.drop k) with _ | s'
    · rw [hrec] at h; cases h
    · rw [hrec] at h
      simp only [Option.map_some', Option.some.injEq] at h
      subst h
      obtain ⟨hv, henc⟩ := utf8DecodeOne_encode hone
      obtain ⟨he', hval⟩ := ih s' hrec
      constructor
      · have hx : utf8Encode (n :: s') = utf8EncodeChar n ++ utf8Encode s' := by
          simp [utf8Encode]
        rw [hx, he', henc]
      · intro m hm
        rcases List.mem_cons.mp hm with rfl | hm'
        · exact hv
        · exact hval m hm'
  | case3 b bs hone =>
    intro s h
    simp only [utf8Decode, hone] at h
    cases h

theorem detectAux_eq_find (cats : List (List Char × List (List Char))) (il : List Char) :
    detectAux cats il
      = (cats.find? (fun ck => ck.2.any (fun k => containsSub k il))).map Prod.fst := by
  induction cats with
  | nil => rfl
  | cons ck rest ih =>
    obtain ⟨cat, kws⟩ := ck
    by_cases hp : kws.any (fun k => containsSub k il) = true
    · have hf : List.find? (fun ck => ck.2.any (fun k => containsSub k il)) ((cat, kws) :: rest)
          = some (cat, kws) := List.find?_cons_of_pos rest hp
      rw [detectAux, if_pos hp, hf]
      rfl
    · have hf : List.find? (fun ck => ck.2.any (fun k => containsSub k il)) ((cat, kws) :: rest)
          = List.find? (fun ck => ck.2.any (fun k => containsSub k il)) rest :=
        List.find?_cons_of_neg rest (by simpa using hp)
      rw [detectAux, if_neg hp, hf, ih]

theorem extract_items_joinNL (ls : List (List Char)) (hne : ls ≠ [])
    (hfree : ∀ l ∈ ls, ∀ c ∈ l, (c == '\n') = false) :
    extract_items (joinNL ls) = ls.filterMap lineToItem := by
  unfold extract_items
  rw [splitLines_joinNL ls hne hfree]

theorem extract_items_refix (text : List Char) :
    extract_items (joinNL ((extract_items text).map Item.original)) = extract_items text := by
  by_cases hits : extract_items text = []
  · rw [hits]; rfl
  · have hne : (extract_items text).map Item.original ≠ [] := by
      simpa using hits
    have hfree : ∀ l ∈ (extract_items text).map Item.original, ∀ c ∈ l, (c == '\n') = false := by
      intro l hl c hc
      rw [List.mem_map] at hl
      obtain ⟨it, hit, rfl⟩ := hl
      obtain ⟨raw, hrawmem, hraw⟩ := extract_items_elim hit
      have ho : it.original = pyStrip raw := (lineToItem_elim hraw).1
      rw [ho] at hc
      exact mem_splitOnPred_false text raw hrawmem c (mem_pyStrip hc)
    rw [extract_items_joinNL _ hne hfree]
    apply filterMap_originals
    intro it hit
    obtain ⟨raw, _, hraw⟩ := extract_items_elim hit
    exact lineToItem_refix hraw

/-! ## The claims -/

/-- C1: the spec says the quantity token is stripped only as a whole unit
word and that `"- 2 lbs Chicken"` yields the item name `"Chicken"`.  The
code's alternation tries `lb` before `lbs` with no word boundary, so it
removes `"2 lb"` and emits the name `"s Chicken"` (still categorised as
meat); the spec's scenario is what the regex plainly intends (its `lbs`
alternative is unreachable), so the code is at fault.  This theorem
evaluates the extractor at the spec's own scenario input. -/
theorem extract_items_lbs_slip :
    (extract_items ("1. Apples\n- 2 lbs Chicken\nTOTAL ITEMS PURCHASED TODAY\nx".toList)).map
        Item.name
      = ["Apples".toList, "s Chicken".toList]
    ∧ (extract_items ("1. Apples\n- 2 lbs Chicken\nTOTAL ITEMS PURCHASED TODAY\nx".toList)).map
        Item.category
      = [some ("produce".toList), some ("meat".toList)] := by
  constructor <;> decide

/-- C2 counterexample: when the pdfplumber pass raises after having already
collected the page text `"A"` and the PyMuPDF pass returns the single page
`"B"`, `parse_pdf` returns `"A\nB"`, not the secondary engine's output
`"B"` — the `text` list is not reset before the fallback. -/
theorem parse_pdf_primary_leak :
    parse_pdf ⟨[some ("A".toList)], true, ["B".toList], false⟩ = "A\nB".toList
    ∧ parse_pdf ⟨[some ("A".toList)], true, ["B".toList], false⟩ ≠ "B".toList := by
  constructor <;> decide

/-- C2 (amended): when the primary engine raises and the secondary succeeds,
the result is the newline-join of the page texts the primary collected
before raising followed by the secondary's page texts; it equals exactly
the secondary's output when the primary collected nothing.  No exception
escapes, and when both engines fail the empty string is returned. -/
theorem parse_pdf_fallback (f : PdfFile) :
    (f.primaryRaises = true → f.secondaryRaises = false →
       parse_pdf f = joinNL (collectedPrimary f ++ f.secondaryPages))
    ∧ (f.primaryRaises = true → f.secondaryRaises = false → collectedPrimary f = [] →
       parse_pdf f = joinNL f.secondaryPages)
    ∧ (f.primaryRaises = true → f.secondaryRaises = true → parse_pdf f = []) := by
  refine ⟨?_, ?_, ?_⟩
  · intro hp hs
    unfold parse_pdf
    rw [if_neg (by simp [hp]), if_neg (by simp [hs])]
  · intro hp hs hc
    unfold parse_pdf
    rw [if_neg (by simp [hp]), if_neg (by simp [hs]), hc, List.nil_append]
  · intro hp hs
    unfold parse_pdf
    rw [if_neg (by simp [hp]), if_pos hs]

/-- C3 counterexample: on an OCR failure (here the Tesseract binary being
absent) `parse_image` raises a plain base-class `Exception`, the same class
any generic extraction failure carries, not a distinct `OcrUnavailable`
failure — only its message is fixed. -/
theorem parse_image_no_distinct_class :
    parse_image (Except.error ⟨"TesseractNotFoundError".toList,
        "tesseract is not installed".toList⟩)
      = Except.error ocrFailureError
    ∧ ocrFailureError.cls = genericExceptionClass
    ∧ ocrFailureError.cls ≠ "OcrUnavailable".toList := by
  refine ⟨rfl, rfl, ?_⟩
  decide

/-- C3 (amended): whenever the OCR step is unavailable or throws,
`parse_image` raises a failure with the fixed message
`"OCR processing failed. Ensure Tesseract is installed."` and never returns
a string — so the case is distinguishable from OCR succeeding on a blank
image (`Except.ok ""`) — but the failure carries the generic `Exception`
class, so it is distinguishable from other extraction failures only by its
message, not by a distinct `OcrUnavailable` class. -/
theorem parse_image_unavailable (e : PyError) :
    parse_image (Except.error e) = Except.error ocrFailureError
    ∧ (∀ s : List Char, parse_image (Except.error e) ≠ Except.ok s)
    ∧ ocrFailureError.cls = genericExceptionClass :=
  ⟨rfl, fun _ h => Except.noConfusion h, rfl⟩

/-- C4 counterexample: the line `"1. - milk"` has BOTH its numeric marker
and its bullet marker stripped (the four patterns are applied in sequence),
so the emitted name is `"milk"`, not the claim's `"- milk"`. -/
theorem marker_stacking_milk :
    (extract_items ("1. - milk".toList)).map Item.name = ["milk".toList]
    ∧ ("milk".toList : List Char) ≠ "- milk".toList := by
  constructor <;> decide

/-- C4 (amended): each of the four marker patterns is applied once, in the
priority order, each to the previous pattern's output: a numeric marker
followed by a bullet marker are both stripped, while a single pattern never
strips twice, so the second of two stacked numeric markers survives the
marker phase. -/
theorem marker_stacking (rest : List Char) :
    stripMarkers ("1. - ".toList ++ rest) = stripMarkers ("- ".toList ++ rest)
    ∧ stripMarkers ("1. 2. ".toList ++ rest) = "2. ".toList ++ rest :=
  ⟨rfl, rfl⟩

/-- C5 counterexample: for the input line `"  milk "` the emitted item has
`original = "milk"`, the trimmed line, not the untouched pre-trim source
line `"  milk "` (the code rebinds `line = line.strip()` before storing). -/
theorem original_not_pretrim :
    extract_items ("  milk ".toList)
      = [⟨"milk".toList, some ("dairy".toList), "milk".toList⟩]
    ∧ ("milk".toList : List Char) ≠ "  milk ".toList := by
  constructor <;> decide

/-- C5 (amended): every emitted item's `original` equals the
whitespace-trimmed version of its source line (after step-1 trimming,
before marker/quantity stripping), and the item's `name` is what
`_extract_item_text` yields on that stored `original`. -/
theorem original_is_trimmed_line (text : List Char) (it : Item)
    (h : it ∈ extract_items text) :
    ∃ raw ∈ splitLines text, it.original = pyStrip raw
      ∧ extract_item_text it.original = some it.name := by
  obtain ⟨raw, hmem, hraw⟩ := extract_items_elim h
  obtain ⟨ho, ht, _, _⟩ := lineToItem_elim hraw
  exact ⟨raw, hmem, ho, by rw [ho]; exact ht⟩

/-- C5 witness: the amended statement at the concrete input `"  milk "`. -/
theorem original_is_trimmed_line_witness :
    ∃ raw ∈ splitLines ("  milk ".toList),
      (Item.mk ("milk".toList) (some ("dairy".toList)) ("milk".toList)).original = pyStrip raw
      ∧ extract_item_text
          (Item.mk ("milk".toList) (some ("dairy".toList)) ("milk".toList)).original
        = some (Item.mk ("milk".toList) (some ("dairy".toList)) ("milk".toList)).name :=
  original_is_trimmed_line ("  milk ".toList)
    ⟨"milk".toList, some ("dairy".toList), "milk".toList⟩ (by decide)

/-- C6 counterexample: the valid UTF-8 byte sequence `b"a\r\nb"` is not
returned verbatim: text mode's universal-newline translation turns it into
`"a\nb"`, so carriage returns are not preserved. -/
theorem parse_text_cr_translated :
    parse_text [97, 13, 10, 98] = some [97, 10, 98]
    ∧ parse_text [97, 13, 10, 98] ≠ some [97, 13, 10, 98] := by
  constructor
  · simp [parse_text, utf8Decode, utf8DecodeOne, univNewlines]
  · simp [parse_text, utf8Decode, utf8DecodeOne, univNewlines]

/-- C6 (amended): plain-text extraction decodes the bytes as strict UTF-8
and applies universal-newline translation, so every encoded scalar sequence
decodes to itself with `\r\n` and lone `\r` turned into `\n` — verbatim
exactly when the text has no carriage return — and extraction fails
(`DecodeError`) exactly on byte sequences that are not the UTF-8 encoding
of a scalar sequence. -/
theorem parse_text_utf8 (s b : List Nat) :
    ((∀ n ∈ s, validScalar n = true) →
        parse_text (utf8Encode s) = some (univNewlines s)
      ∧ (13 ∉ s → parse_text (utf8Encode s) = some s))
    ∧ (utf8Decode b = some s → utf8Encode s = b ∧ ∀ n ∈ s, validScalar n = true)
    ∧ (utf8Decode b = none → parse_text b = none) := by
  refine ⟨?_, ?_, ?_⟩
  · intro hv
    have hd := utf8Decode_encode s hv
    constructor
    · unfold parse_text
      rw [hd]
      rfl
    · intro hcr
      unfold parse_text
      rw [hd, Option.map_some', univNewlines_no_cr s hcr]
  · exact utf8Encode_of_decode b s
  · intro hn
    unfold parse_text
    rw [hn]
    rfl

/-- C7: the Category Tagger lower-cases its input and returns the first
category, in the taxonomy's declaration order with keywords in declaration
order, whose keyword is a substring of the lowered name (`none` when no
keyword matches); in particular `tag("frozen pizza")` is `"frozen"`. -/
theorem detect_category_first_match :
    (∀ nm : List Char, detect_category nm
        = (CATEGORIES.find? (fun ck =>
            ck.2.any (fun k => containsSub k (pyLower nm)))).map Prod.fst)
    ∧ detect_category ("frozen pizza".toList) = some ("frozen".toList) := by
  constructor
  · intro nm
    unfold detect_category
    exact detectAux_eq_find CATEGORIES (pyLower nm)
  · decide

/-- C8: re-parsing the newline-join of the `original` fields of a parse's
output yields the same multiset of `name`s as the first parse (in fact the
same list of items). -/
theorem extract_items_reparse_names (text : List Char) :
    Multiset.ofList
        ((extract_items (joinNL ((extract_items text).map Item.original))).map Item.name)
      = Multiset.ofList ((extract_items text).map Item.name) := by
  rw [extract_items_refix]

/-- C9 counterexample: the voice entry point enforces no upper length
bound: a 101-character token is emitted as an item whose name has length
101, violating the claimed 100-character maximum. -/
theorem voice_name_over_100 :
    (extract_from_voice (List.replicate 101 'a')).map Item.name
      = [List.replicate 101 'a']
    ∧ 100 < (List.replicate 101 'a').length := by
  constructor <;> decide

/-- C9 (amended): every item from the line parser has a trimmed name of
length between 2 and 100; every item from the voice parser has a trimmed
name of length at least 2, but no upper bound is enforced there.  (Items
are plain records, never mutated after creation.) -/
theorem item_name_bounds (text : List Char) (it : Item) :
    (it ∈ extract_items text →
       pyStrip it.name = it.name ∧ 2 ≤ it.name.length ∧ it.name.length ≤ 100)
    ∧ (it ∈ extract_from_voice text →
       pyStrip it.name = it.name ∧ 2 ≤ it.name.length) := by
  constructor
  · intro hit
    obtain ⟨raw, _, hraw⟩ := extract_items_elim hit
    obtain ⟨_, ht, _, _⟩ := lineToItem_elim hraw
    obtain ⟨heq, h2, h100⟩ := extract_item_text_elim ht
    refine ⟨?_, h2, h100⟩
    rw [heq, pyStrip_idem]
  · intro hit
    obtain ⟨_, hstrip, hlen⟩ := extract_from_voice_elim hit
    exact ⟨hstrip, by omega⟩

/-- C10: every item emitted by the voice entry point has its `original`
field equal to its `name` field (both are the stripped token). -/
theorem voice_original_eq_name (text : List Char) (it : Item)
    (h : it ∈ extract_from_voice text) : it.original = it.name :=
  (extract_from_voice_elim h).1

/-- C10 witness: the voice item for the input `"ab"`. -/
theorem voice_original_eq_name_witness :
    (Item.mk ("ab".toList) none ("ab".toList)).original
      = (Item.mk ("ab".toList) none ("ab".toList)).name :=
  voice_original_eq_name ("ab".toList) ⟨"ab".toList, none, "ab".toList⟩ (by decide)
